import Mathlib

/-!
Verification of `pepnet/encoder.py` (the `Encoder` class).

The Python source is shallowly embedded below:
* peptide strings become `List Char`,
* numpy float arrays become nested lists over `ℚ` (the float values the code
  manipulates are exact sums/products of powers of the forgetting factor and
  small rationals, so `ℚ` models them exactly),
* fallible code (Python `raise`/`assert`, numpy broadcast failures, `max()` of
  an empty sequence, dict `KeyError`) becomes `Except EncErr`,
* the ordered pair of dictionaries `_tokens_to_names` / `_index_dict` becomes a
  single insertion-ordered association list: the source maintains
  `_index_dict[token] == position of token in _tokens_to_names`, so the index
  of a token is its position in the list.
-/

namespace Pepnet

/-- One alphabet entry of `pepdata` (a letter together with its full name).
The source assertion `assert len(token) == 1` is reflected by using `Char`. -/
structure AminoAcid where
  letter : Char
  full_name : String
deriving DecidableEq, Repr

/-- The constructor arguments of `Encoder.__init__`, immutable afterwards. -/
structure EncoderConfig where
  amino_acid_alphabet : List AminoAcid
  variable_length_sequences : Bool
  add_start_tokens : Bool
  add_stop_tokens : Bool
  add_normalized_position : Bool
  add_normalized_centrality : Bool
deriving DecidableEq, Repr

/-- The distinct runtime failures of the encoder:
* `emptyMax`: Python `max()` over an empty sequence (`ValueError`), raised by
  `_validate_peptide_lengths` / `_add_extra_features` on an empty batch;
* `lengthMismatch observed expected offender`: the two explicit `raise
  ValueError` length checks of `_validate_peptide_lengths` (the message names
  the offending length, the expected length, and one offending peptide);
* `unsupportedCombination`: the two `assert not self.add_normalized_*`
  statements at the top of `encode_index_array`;
* `broadcastError`: a numpy shape mismatch when assigning a row of the wrong
  length (`_encode_from_pairwise_properties` writing an alphabet-sized feature
  row into a hard-coded width-20 slot, or `_add_extra_features` assigning
  `vec / l` into a full `max_length` row / `np.dstack` of unequal shapes);
* `indexError`: writing a scratch row `i >= len(X)` in the
  `_add_extra_features` loop, which iterates over `peptides` while the
  scratch arrays have `len(X)` rows. -/
inductive EncErr where
  | emptyMax : EncErr
  | lengthMismatch (observed expected : Nat) (offender : List Char) : EncErr
  | unsupportedCombination : EncErr
  | broadcastError : EncErr
  | indexError : EncErr
deriving DecidableEq, Repr

/-- Returns `true` iff the `Except` is an error (used to state "raises"). -/
def isErr {α : Type} : Except EncErr α → Bool
  | .error _ => true
  | .ok _ => false

/-- Python `max` over a list (`None` marks the `ValueError` on empty input). -/
def pyMax : List Nat → Option Nat
  | [] => none
  | x :: xs =>
    some (match pyMax xs with
          | none => x
          | some m => max x m)

/-- Python truthiness of the optional `padded_peptide_length` argument:
`None` and `0` are both falsy in `if padded_peptide_length:`. -/
def pyTruthy : Option Nat → Bool
  | none => false
  | some n => n != 0

/-- Position of a character in the ordered token list; this is the value
`_index_dict[c]` stores, since the source assigns `len(_index_dict)` at
insertion time.  (On a character that was never inserted the source raises
`KeyError`; this total model returns the list length there, and every theorem
below restricts to in-vocabulary characters.) -/
def dictIndex : List Char → Char → Nat
  | [], _ => 0
  | t :: ts, c => if c = t then 0 else dictIndex ts c + 1

/-- Embeds `Encoder._add_token`: append a fresh token; duplicate tokens are a
fatal configuration error (`assert token not in self._index_dict`). -/
def addTokenPair (toks : List (Char × String)) (t : Char) (n : String) :
    Except String (List (Char × String)) :=
  if (toks.map Prod.fst).contains t then .error "duplicate token"
  else .ok (toks ++ [(t, n)])

/-- The `for aa in amino_acid_alphabet: self._add_token(...)` loop. -/
def addAminoAcids (toks : List (Char × String)) :
    List AminoAcid → Except String (List (Char × String))
  | [] => .ok toks
  | aa :: rest =>
    match addTokenPair toks aa.letter aa.full_name with
    | .error e => .error e
    | .ok toks1 => addAminoAcids toks1 rest

/-- Embeds `Encoder.__init__`: build the ordered token table — gap (if
`variable_length_sequences`), then start, then stop, then the alphabet. -/
def initTokens (cfg : EncoderConfig) : Except String (List (Char × String)) :=
  match (if cfg.variable_length_sequences then addTokenPair [] '-' "Gap" else .ok []) with
  | .error e => .error e
  | .ok t1 =>
    match (if cfg.add_start_tokens then addTokenPair t1 '^' "Start" else .ok t1) with
    | .error e => .error e
    | .ok t2 =>
      match (if cfg.add_stop_tokens then addTokenPair t2 '$' "Stop" else .ok t2) with
      | .error e => .error e
      | .ok t3 => addAminoAcids t3 cfg.amino_acid_alphabet

/-- A constructed `Encoder` object: its configuration and its token table. -/
structure Encoder where
  cfg : EncoderConfig
  toks : List (Char × String)
deriving DecidableEq, Repr

/-- The `tokens` property (ordered token characters). -/
def tokenChars (e : Encoder) : List Char := e.toks.map Prod.fst

/-- The `index_dict` property as a lookup function. -/
def index_dict (e : Encoder) (c : Char) : Nat := dictIndex (tokenChars e) c

/-- The letters of the configured alphabet, in order. -/
def alphabetLetters (cfg : EncoderConfig) : List Char :=
  cfg.amino_acid_alphabet.map AminoAcid.letter

/-- Embeds `Encoder.prepare_sequences`: prefix the start token if
`add_start_tokens` (bumping a truthy pad target by 1), suffix the stop token
if `add_stop_tokens` (bumping again), then right-pad with the gap token up to
the (bumped) target when it is truthy.  A negative Python repeat count gives
the empty string, matching `Nat` subtraction. -/
def prepare_sequences (cfg : EncoderConfig) (peptides : List (List Char))
    (padded_peptide_length : Option Nat) : List (List Char) :=
  let ps1 := if cfg.add_start_tokens then peptides.map (fun p => '^' :: p) else peptides
  let l1 := if cfg.add_start_tokens && pyTruthy padded_peptide_length then
      padded_peptide_length.map (fun n => n + 1)
    else padded_peptide_length
  let ps2 := if cfg.add_stop_tokens then ps1.map (fun p => p ++ ['$']) else ps1
  let l2 := if cfg.add_stop_tokens && pyTruthy l1 then l1.map (fun n => n + 1) else l1
  if pyTruthy l2 then
    ps2.map (fun p => p ++ List.replicate (l2.getD 0 - p.length) '-')
  else ps2

/-- Resolution of the optional `max_peptide_length` argument (source lines
156–157): default to the longest raw peptide when omitted. -/
def resolved_max (peptides : List (List Char)) (max_peptide_length : Option Nat) :
    Option Nat :=
  match max_peptide_length with
  | none => pyMax (peptides.map List.length)
  | some m => some m

/-- Embeds `Encoder._validate_peptide_lengths`. -/
def _validate_peptide_lengths (cfg : EncoderConfig) (peptides : List (List Char))
    (max_peptide_length : Option Nat) : Except EncErr Nat :=
  match resolved_max peptides max_peptide_length with
  | none => .error .emptyMax
  | some m =>
    if cfg.variable_length_sequences then
      match pyMax (peptides.map List.length) with
      | none => .error .emptyMax
      | some obs =>
        if m < obs then
          .error (.lengthMismatch obs m
            ((peptides.filter (fun p => p.length == obs)).headD []))
        else .ok m
    else
      match peptides.find? (fun p => p.length != m) with
      | some ex => .error (.lengthMismatch ex.length m ex)
      | none => .ok m

/-- Embeds `Encoder._validate_and_prepare_peptides`: validate, affix
start/stop tokens (note: **no padding** — `prepare_sequences` is called
without a length), and bump the effective length by 1 per enabled start/stop
token. -/
def _validate_and_prepare_peptides (cfg : EncoderConfig)
    (peptides : List (List Char)) (max_peptide_length : Option Nat) :
    Except EncErr (List (List Char) × Nat) :=
  match _validate_peptide_lengths cfg peptides max_peptide_length with
  | .error e => .error e
  | .ok m =>
    .ok (prepare_sequences cfg peptides none,
      m + (if cfg.add_start_tokens then 1 else 0)
        + (if cfg.add_stop_tokens then 1 else 0))

/-- Embeds `Encoder.encode_index_array`: assert the augmentation flags are
off, then fill `np.zeros((n, max_peptide_length), dtype=int)` with token
indices; cells past the characters of a peptide keep the zero fill. -/
def encode_index_array (e : Encoder) (peptides : List (List Char))
    (max_peptide_length : Option Nat) : Except EncErr (List (List Nat)) :=
  if e.cfg.add_normalized_centrality || e.cfg.add_normalized_position then
    .error .unsupportedCombination
  else
    match _validate_and_prepare_peptides e.cfg peptides max_peptide_length with
    | .error err => .error err
    | .ok (prepared, len) =>
      .ok (prepared.map (fun p => (List.range len).map (fun j =>
        match p[j]? with
        | some c => index_dict e c
        | none => 0)))

/-- Normalized centrality row of `_add_extra_features`
(`np.abs(vec - center) / center` with `center = (l - 1) / 2`).
For `l = 1` the source divides `0.0` by `0.0` producing `NaN`; under the Lean
`ℚ` convention this cell is `0`, and every theorem below keeps lengths `≥ 2`. -/
def centralityRow (l : Nat) : List ℚ :=
  (List.range l).map (fun j : Nat =>
    |(j : ℚ) - ((l : ℚ) - 1) / 2| / (((l : ℚ) - 1) / 2))

/-- Normalized position row of `_add_extra_features` (`vec / l`). -/
def positionRow (l : Nat) : List ℚ :=
  (List.range l).map (fun j : Nat => (j : ℚ) / (l : ℚ))

/-- The first failure of the `for i, l in enumerate(lengths)` loop of
`_add_extra_features`, scanned in loop order over `peptides`: the scratch
arrays have `n = len(X)` rows, so touching row `i >= n`
(`X_centrality[i, :l]`, the first statement of the body) is an `IndexError`;
otherwise `X_position[i, :] = vec / l` assigns an `l`-sized row into a
`max_length`-sized slot, a broadcast `ValueError` unless `l == max_length`
or `l == 1` (numpy broadcasts a single-element row across the slot). -/
def scratchLoopError (n maxLen : Nat) : Nat → List (List Char) → Option EncErr
  | _, [] => none
  | i, p :: rest =>
    if n ≤ i then some .indexError
    else if p.length != maxLen && p.length != 1 then some .broadcastError
    else scratchLoopError n maxLen (i + 1) rest

/-- Cell `(i, j)` of the `X_centrality` scratch array after the loop: the
slice `X_centrality[i, :l]` holds the centrality values and the zero
initialization remains beyond `l` and on every row the loop never reached
(rows of `X` past the end of `peptides`).  For `l = 1` the source computes
`0.0 / 0.0 = NaN`; `ℚ` has no NaN, this model returns 0 there, and the
theorems below never characterize that cell. -/
def centralityScratch (peptides : List (List Char)) (i j : Nat) : ℚ :=
  match peptides[i]? with
  | none => 0
  | some p => (centralityRow p.length).getD j 0

/-- Cell `(i, j)` of the `X_position` scratch array after the loop.  For
`l = max_length` the assignment fills the row exactly; for `l = 1` numpy
broadcasts the single value `0.0 / 1 = 0.0` across the whole row, which
coincides with extending `positionRow 1 = [0]` by the zero fill, so the same
`getD` expression covers both surviving cases; untouched rows stay zero. -/
def positionScratch (peptides : List (List Char)) (i j : Nat) : ℚ :=
  match peptides[i]? with
  | none => 0
  | some p => (positionRow p.length).getD j 0

/-- Embeds `Encoder._add_extra_features`.  The loop always fills **both**
scratch arrays of shape `(len(X), max_length)` while iterating over
`peptides` (see `scratchLoopError` for the failure cases), and the final
`np.dstack` requires the rows of `X` to have the common `max_length` as
well; rows of `X` beyond the end of `peptides` receive the untouched zero
scratch cells. -/
def _add_extra_features (cfg : EncoderConfig) (X : List (List (List ℚ)))
    (peptides : List (List Char)) : Except EncErr (List (List (List ℚ))) :=
  if !cfg.add_normalized_position && !cfg.add_normalized_centrality then .ok X
  else
    match pyMax (peptides.map List.length) with
    | none => .error .emptyMax
    | some maxLen =>
      match scratchLoopError X.length maxLen 0 peptides with
      | some err => .error err
      | none =>
        if X.any (fun xrow => xrow.length != maxLen) then
          .error .broadcastError
        else
          .ok (X.mapIdx (fun i xrow =>
            xrow.zipWith (fun cell j =>
              cell
                ++ (if cfg.add_normalized_centrality then
                      [centralityScratch peptides i j] else [])
                ++ (if cfg.add_normalized_position then
                      [positionScratch peptides i j] else []))
              (List.range maxLen)))

/-- The single hot row `X[i, j, :]` produced by `encode_onehot` for a token of
index `idx` (zeros elsewhere). -/
def oneHotRow (width idx : Nat) : List ℚ :=
  (List.range width).map (fun k => if idx = k then 1 else 0)

/-- Embeds `Encoder.encode_onehot`: validate/affix, build the binary tensor
(cells past the characters of a peptide keep the `np.zeros` fill — **all**
channels zero), then run the extra-feature augmentation. -/
def encode_onehot (e : Encoder) (peptides : List (List Char))
    (max_peptide_length : Option Nat) : Except EncErr (List (List (List ℚ))) :=
  match _validate_and_prepare_peptides e.cfg peptides max_peptide_length with
  | .error err => .error err
  | .ok (prepared, len) =>
    let n_symbols := (tokenChars e).length
    let X := prepared.map (fun p => (List.range len).map (fun j =>
      match p[j]? with
      | some c => oneHotRow n_symbols (index_dict e c)
      | none => List.replicate n_symbols 0))
    _add_extra_features e.cfg X prepared

/-- numpy assignment `X[i, j, :] = row` into a slot of width `w`: an
exact-width row copies, a length-1 row broadcasts, anything else raises a
broadcast `ValueError`. -/
def assignRow (w : Nat) (row : List ℚ) : Except EncErr (List ℚ) :=
  if row.length = w then .ok row
  else if row.length = 1 then .ok (List.replicate w (row.headD 0))
  else .error .broadcastError

/-- The feature row `aa_to_feature_row[c]` of
`_encode_from_pairwise_properties`: structural tokens are written **after**
the alphabet rows, so they map to zeros even if the alphabet contained them;
alphabet letters map to their property-matrix row re-projected onto the
column order of the configured alphabet.  (A character in neither group is a
`KeyError` in the source; the theorems below restrict to in-alphabet
peptides, for which that branch is unreachable.) -/
def featureRow (cfg : EncoderConfig) (letterIndex : Char → Nat)
    (matrix : Nat → Nat → ℚ) (c : Char) : List ℚ :=
  let alphabet_indices := (alphabetLetters cfg).map letterIndex
  if c = '-' ∨ c = '^' ∨ c = '$' then
    List.replicate alphabet_indices.length 0
  else if (alphabetLetters cfg).contains c then
    alphabet_indices.map (fun k => matrix (letterIndex c) k)
  else
    List.replicate alphabet_indices.length 0

/-- Embeds `Encoder._encode_from_pairwise_properties` (shared body of `encode_pmbec`
and `encode_blosum`; those differ only in the supplied `matrix`).  The output
tensor is allocated as `np.zeros((n, max_peptide_length, 20))` — the literal
`20` is hard-coded in the source — and each in-range cell receives the
(alphabet-sized) feature row through numpy assignment. -/
def _encode_from_pairwise_properties (e : Encoder) (letterIndex : Char → Nat)
    (matrix : Nat → Nat → ℚ) (peptides : List (List Char))
    (max_peptide_length : Option Nat) : Except EncErr (List (List (List ℚ))) :=
  match _validate_and_prepare_peptides e.cfg peptides max_peptide_length with
  | .error err => .error err
  | .ok (prepared, len) =>
    match prepared.mapM (fun p => (List.range len).mapM (fun j =>
      match p[j]? with
      | some c => assignRow 20 (featureRow e.cfg letterIndex matrix c)
      | none => .ok (List.replicate 20 (0 : ℚ)))) with
    | .error err => .error err
    | .ok X => _add_extra_features e.cfg X prepared

/-- The FOFE accumulator of `encode_FOFE` for one prepared peptide, as a map
from output column to value (`result[i, k]`): iterate over the positions,
adding `alpha ** (l - j - 1)` at the index of the token and — when bidirectional —
`alpha ** j` at `n_symbols + index`. -/
def fofeRow (e : Encoder) (alpha : ℚ) (bidirectional : Bool) (p : List Char) :
    Nat → ℚ :=
  let n_symbols := (tokenChars e).length
  let l := p.length
  (List.range l).foldl (fun acc j =>
    let aaIdx := index_dict e (p.getD j ' ')
    let acc1 : Nat → ℚ :=
      fun k => if k = aaIdx then acc k + alpha ^ (l - j - 1) else acc k
    if bidirectional then
      fun k => if k = n_symbols + aaIdx then acc1 k + alpha ^ j else acc1 k
    else acc1)
    (fun _ => 0)

/-- Embeds `Encoder.encode_FOFE`: no validation, no padding — only start/stop
affixing — then one accumulator row per peptide, of width `n_symbols` (or
`2 * n_symbols` when bidirectional). -/
def encode_FOFE (e : Encoder) (peptides : List (List Char)) (alpha : ℚ)
    (bidirectional : Bool) : List (List ℚ) :=
  let prepared := prepare_sequences e.cfg peptides none
  let n_symbols := (tokenChars e).length
  prepared.map (fun p =>
    (List.range (if bidirectional then 2 * n_symbols else n_symbols)).map
      (fofeRow e alpha bidirectional p))

/-- The start/stop affixing applied to a single peptide by
`prepare_sequences` (no padding). -/
def affix (cfg : EncoderConfig) (p : List Char) : List Char :=
  (if cfg.add_start_tokens then ['^'] else []) ++ p
    ++ (if cfg.add_stop_tokens then ['$'] else [])

/-- Decode one integer row back through the inverse of the index table
(index `k` maps back to the `k`-th token). -/
def decodeRow (toks : List Char) (row : List Nat) : List Char :=
  row.map (fun k => toks.getD k ' ')

/-- Channel-axis sum of one `(batch, position)` cell of a 3-D tensor — the
observable that the one-hot property of the spec talks about. -/
def channelSum (X : List (List (List ℚ))) (i j : Nat) : ℚ :=
  ((X.getD i []).getD j []).sum

/-- The structural tokens enabled by a configuration, in insertion order. -/
def structuralChars (cfg : EncoderConfig) : List Char :=
  (if cfg.variable_length_sequences then ['-'] else [])
    ++ (if cfg.add_start_tokens then ['^'] else [])
    ++ (if cfg.add_stop_tokens then ['$'] else [])

/-- The structural token/name pairs enabled by a configuration, in insertion
order (the state of the table just before the alphabet loop of `__init__`). -/
def structuralPairs (cfg : EncoderConfig) : List (Char × String) :=
  (if cfg.variable_length_sequences then [('-', "Gap")] else [])
    ++ (if cfg.add_start_tokens then [('^', "Start")] else [])
    ++ (if cfg.add_stop_tokens then [('$', "Stop")] else [])

/-- Two-letter test alphabet. -/
def alphaAC : List AminoAcid := [⟨'A', "Alanine"⟩, ⟨'C', "Cysteine"⟩]

/-- Three-letter test alphabet. -/
def alphaACD : List AminoAcid :=
  [⟨'A', "Alanine"⟩, ⟨'C', "Cysteine"⟩, ⟨'D', "Aspartate"⟩]

/-- Variable-length encoder over `alphaAC`, no other flags. -/
def cfgW : EncoderConfig := ⟨alphaAC, true, false, false, false, false⟩

/-- The token table `__init__` builds for `cfgW`. -/
def encW : Encoder := ⟨cfgW, [('-', "Gap"), ('A', "Alanine"), ('C', "Cysteine")]⟩

/-- Fixed-length configuration with start and stop tokens. -/
def cfgSS : EncoderConfig := ⟨alphaAC, false, true, true, false, false⟩

/-- Fixed-length configuration with a start token only. -/
def cfgStart : EncoderConfig := ⟨alphaAC, false, true, false, false, false⟩

/-- Variable-length configuration with start and stop tokens. -/
def cfgVSS : EncoderConfig := ⟨alphaAC, true, true, true, false, false⟩

/-- The token table `__init__` builds for `cfgVSS`. -/
def toksVSS : List (Char × String) :=
  [('-', "Gap"), ('^', "Start"), ('$', "Stop"), ('A', "Alanine"), ('C', "Cysteine")]

/-- Fixed-length encoder over `alphaAC`, no flags at all. -/
def cfgFixed : EncoderConfig := ⟨alphaAC, false, false, false, false, false⟩

/-- The token table `__init__` builds for `cfgFixed`. -/
def encFixed : Encoder := ⟨cfgFixed, [('A', "Alanine"), ('C', "Cysteine")]⟩

/-- Variable-length encoder with the normalized-position augmentation. -/
def cfgPos : EncoderConfig := ⟨alphaAC, true, false, false, true, false⟩

/-- The token table `__init__` builds for `cfgPos`. -/
def encPos : Encoder := ⟨cfgPos, [('-', "Gap"), ('A', "Alanine"), ('C', "Cysteine")]⟩

/-- Fixed-length encoder with a start token and centrality augmentation. -/
def cfgCent : EncoderConfig := ⟨alphaACD, false, true, false, false, true⟩

/-- The token table `__init__` builds for `cfgCent`. -/
def encCent : Encoder :=
  ⟨cfgCent, [('^', "Start"), ('A', "Alanine"), ('C', "Cysteine"), ('D', "Aspartate")]⟩

/-- Configuration with both scalar augmentations and no structural tokens. -/
def cfgBoth : EncoderConfig := ⟨alphaACD, false, false, false, true, true⟩

/-- A stand-in for the external canonical letter-to-row-index table
(`amino_acid_letter_indices`), out of scope per the spec. -/
def letterIndexW : Char → Nat :=
  fun c => if c = 'A' then 0 else if c = 'C' then 4 else 19

/-- A stand-in for an external 20-by-20 property matrix (PMBEC / BLOSUM62),
out of scope per the spec. -/
def matrixW : Nat → Nat → ℚ := fun i j => (i + 1) * (j + 1)

theorem pyMax_eq_none_iff (xs : List Nat) : pyMax xs = none ↔ xs = [] := by
  cases xs <;> simp [pyMax]

theorem pyMax_mem {xs : List Nat} {m : Nat} (h : pyMax xs = some m) : m ∈ xs := by
  induction xs generalizing m with
  | nil => simp [pyMax] at h
  | cons x xs ih =>
    cases hx : pyMax xs with
    | none =>
      simp only [pyMax, hx, Option.some.injEq] at h
      exact List.mem_cons.mpr (Or.inl h.symm)
    | some m2 =>
      simp only [pyMax, hx, Option.some.injEq] at h
      rcases max_choice x m2 with hc | hc <;> rw [hc] at h
      · exact h ▸ List.mem_cons_self x xs
      · exact List.mem_cons_of_mem _ (ih (h ▸ hx))

theorem le_pyMax {xs : List Nat} {x m : Nat} (hx : x ∈ xs) (h : pyMax xs = some m) :
    x ≤ m := by
  induction xs generalizing m with
  | nil => simp at hx
  | cons y ys ih =>
    rcases List.mem_cons.mp hx with rfl | hx'
    · cases hy : pyMax ys with
      | none => simp only [pyMax, hy, Option.some.injEq] at h; omega
      | some m2 =>
        simp only [pyMax, hy, Option.some.injEq] at h
        exact h ▸ Nat.le_max_left _ _
    · cases hy : pyMax ys with
      | none =>
        rw [(pyMax_eq_none_iff ys).mp hy] at hx'
        simp at hx'
      | some m2 =>
        simp only [pyMax, hy, Option.some.injEq] at h
        exact h ▸ Nat.le_trans (ih hx' hy) (Nat.le_max_right _ _)

theorem pyMax_all_eq {xs : List Nat} {L : Nat} (hne : xs ≠ [])
    (hall : ∀ x ∈ xs, x = L) : pyMax xs = some L := by
  cases h : pyMax xs with
  | none => exact absurd ((pyMax_eq_none_iff xs).mp h) hne
  | some m => rw [hall m (pyMax_mem h)]

theorem dictIndex_lt_length {ts : List Char} {c : Char} (h : c ∈ ts) :
    dictIndex ts c < ts.length := by
  induction ts with
  | nil => simp at h
  | cons t ts ih =>
    by_cases hc : c = t
    · simp [dictIndex, hc]
    · rcases List.mem_cons.mp h with rfl | h'
      · exact absurd rfl hc
      · simp only [dictIndex, if_neg hc, List.length_cons]
        exact Nat.succ_lt_succ (ih h')

theorem getD_dictIndex {ts : List Char} {c : Char} (h : c ∈ ts) (d : Char) :
    ts.getD (dictIndex ts c) d = c := by
  induction ts with
  | nil => simp at h
  | cons t ts ih =>
    by_cases hc : c = t
    · simp [dictIndex, hc]
    · rcases List.mem_cons.mp h with rfl | h'
      · exact absurd rfl hc
      · simp only [dictIndex, if_neg hc, List.getD_cons_succ]
        exact ih h'

theorem dictIndex_getD_of_nodup {ts : List Char} (hnd : ts.Nodup) {i : Nat}
    (hi : i < ts.length) (d : Char) : dictIndex ts (ts.getD i d) = i := by
  induction ts generalizing i with
  | nil => simp at hi
  | cons t ts ih =>
    cases i with
    | zero => simp [dictIndex]
    | succ n =>
      have hn : n < ts.length := by simpa using hi
      have hmem : ts.getD n d ∈ ts := by
        rw [List.getD_eq_getElem?_getD, List.getElem?_eq_getElem hn]
        exact List.getElem_mem hn
      have hne : ts.getD n d ≠ t := by
        intro he
        exact (List.nodup_cons.mp hnd).1 (he ▸ hmem)
      simp only [List.getD_cons_succ, dictIndex, if_neg hne]
      rw [ih (List.nodup_cons.mp hnd).2 hn]

theorem addAminoAcids_ok_shape {toks res : List (Char × String)}
    {aas : List AminoAcid} (h : addAminoAcids toks aas = .ok res) :
    res = toks ++ aas.map (fun aa => (aa.letter, aa.full_name)) := by
  induction aas generalizing toks with
  | nil => simp only [addAminoAcids, Except.ok.injEq] at h; simp [h.symm]
  | cons aa rest ih =>
    simp only [addAminoAcids] at h
    cases htp : addTokenPair toks aa.letter aa.full_name with
    | error e => rw [htp] at h; exact absurd h (by simp)
    | ok toks1 =>
      rw [htp] at h
      have h' : addAminoAcids toks1 rest = .ok res := h
      have hshape : toks1 = toks ++ [(aa.letter, aa.full_name)] := by
        simp only [addTokenPair] at htp
        split at htp
        · exact absurd htp (by simp)
        · simpa using htp.symm
      rw [ih h', hshape]
      simp

theorem addAminoAcids_ok_nodup {toks res : List (Char × String)}
    {aas : List AminoAcid} (h : addAminoAcids toks aas = .ok res)
    (hnd : (toks.map Prod.fst).Nodup) : (res.map Prod.fst).Nodup := by
  induction aas generalizing toks with
  | nil => simp only [addAminoAcids, Except.ok.injEq] at h; rw [← h]; exact hnd
  | cons aa rest ih =>
    simp only [addAminoAcids] at h
    cases htp : addTokenPair toks aa.letter aa.full_name with
    | error e => rw [htp] at h; exact absurd h (by simp)
    | ok toks1 =>
      rw [htp] at h
      have h' : addAminoAcids toks1 rest = .ok res := h
      simp only [addTokenPair] at htp
      split at htp
      · exact absurd htp (by simp)
      · rename_i hfresh
        have hmem : aa.letter ∉ toks.map Prod.fst := by
          simpa using hfresh
        have hshape : toks1 = toks ++ [(aa.letter, aa.full_name)] := by
          simpa using htp.symm
        refine ih h' ?_
        rw [hshape, List.map_append]
        refine List.Nodup.append hnd (by simp) ?_
        intro a ha hb
        simp only [List.map_cons, List.map_nil, List.mem_singleton] at hb
        exact hmem (hb ▸ ha)

theorem initTokens_eq (cfg : EncoderConfig) :
    initTokens cfg = addAminoAcids (structuralPairs cfg) cfg.amino_acid_alphabet := by
  cases hv : cfg.variable_length_sequences <;>
    cases hs : cfg.add_start_tokens <;>
    cases he : cfg.add_stop_tokens <;>
    simp [initTokens, structuralPairs, addTokenPair, hv, hs, he]

theorem structuralPairs_fst (cfg : EncoderConfig) :
    (structuralPairs cfg).map Prod.fst = structuralChars cfg := by
  cases hv : cfg.variable_length_sequences <;>
    cases hs : cfg.add_start_tokens <;>
    cases he : cfg.add_stop_tokens <;>
    simp [structuralPairs, structuralChars, hv, hs, he]

theorem structuralChars_nodup (cfg : EncoderConfig) :
    (structuralChars cfg).Nodup := by
  cases hv : cfg.variable_length_sequences <;>
    cases hs : cfg.add_start_tokens <;>
    cases he : cfg.add_stop_tokens <;>
    simp [structuralChars, hv, hs, he]

theorem initTokens_ok_shape {cfg : EncoderConfig} {toks : List (Char × String)}
    (h : initTokens cfg = .ok toks) :
    toks.map Prod.fst = structuralChars cfg ++ alphabetLetters cfg := by
  rw [initTokens_eq] at h
  rw [addAminoAcids_ok_shape h, List.map_append, structuralPairs_fst,
    List.map_map]
  rfl

theorem initTokens_ok_nodup {cfg : EncoderConfig} {toks : List (Char × String)}
    (h : initTokens cfg = .ok toks) : (toks.map Prod.fst).Nodup := by
  rw [initTokens_eq] at h
  exact addAminoAcids_ok_nodup h (by rw [structuralPairs_fst]; exact structuralChars_nodup cfg)

theorem prepare_none_eq (cfg : EncoderConfig) (peptides : List (List Char)) :
    prepare_sequences cfg peptides none = peptides.map (affix cfg) := by
  have hmap : peptides.map (affix cfg) = peptides.map (fun p =>
      (if cfg.add_start_tokens then ['^'] else []) ++ p
        ++ (if cfg.add_stop_tokens then ['$'] else [])) := rfl
  unfold prepare_sequences
  rw [hmap]
  cases hs : cfg.add_start_tokens <;> cases he : cfg.add_stop_tokens <;>
    simp [pyTruthy, hs, he, List.map_map, Function.comp_def]

theorem affix_length (cfg : EncoderConfig) (p : List Char) :
    (affix cfg p).length = p.length
      + (if cfg.add_start_tokens then 1 else 0)
      + (if cfg.add_stop_tokens then 1 else 0) := by
  cases hs : cfg.add_start_tokens <;> cases he : cfg.add_stop_tokens <;>
    simp [affix, hs, he]

theorem mem_affix {cfg : EncoderConfig} {p : List Char} {c : Char}
    (hc : c ∈ affix cfg p) :
    c ∈ p ∨ (cfg.add_start_tokens = true ∧ c = '^')
      ∨ (cfg.add_stop_tokens = true ∧ c = '$') := by
  unfold affix at hc
  cases hs : cfg.add_start_tokens <;> cases he : cfg.add_stop_tokens <;>
    rw [hs, he] at hc <;> simp at hc <;> tauto

theorem prepare_some_eq (cfg : EncoderConfig) (peptides : List (List Char))
    {m : Nat} (hm : 0 < m) :
    prepare_sequences cfg peptides (some m) =
      peptides.map (fun p => affix cfg p ++ List.replicate
        (m + (if cfg.add_start_tokens then 1 else 0)
           + (if cfg.add_stop_tokens then 1 else 0)
           - (affix cfg p).length) '-') := by
  unfold prepare_sequences
  have hm0 : m ≠ 0 := by omega
  cases hs : cfg.add_start_tokens <;> cases he : cfg.add_stop_tokens <;>
    simp [pyTruthy, hs, he, hm0, affix, List.map_map, Function.comp_def,
      Nat.add_comm, Nat.add_assoc, Nat.add_left_comm]

theorem validate_ok_resolved {cfg : EncoderConfig} {peptides : List (List Char)}
    {mpl : Option Nat} {m : Nat}
    (h : _validate_peptide_lengths cfg peptides mpl = .ok m) :
    resolved_max peptides mpl = some m := by
  unfold _validate_peptide_lengths at h
  split at h
  · exact absurd h (by simp)
  · rename_i m0 heq
    split at h
    · split at h
      · exact absurd h (by simp)
      · split at h
        · exact absurd h (by simp)
        · rw [heq]
          simpa using h
    · split at h
      · exact absurd h (by simp)
      · rw [heq]
        simpa using h

theorem validate_ok_le {cfg : EncoderConfig} {peptides : List (List Char)}
    {mpl : Option Nat} {m : Nat}
    (h : _validate_peptide_lengths cfg peptides mpl = .ok m)
    (hv : cfg.variable_length_sequences = true) :
    ∀ p ∈ peptides, p.length ≤ m := by
  intro p hp
  unfold _validate_peptide_lengths at h
  split at h
  · exact absurd h (by simp)
  · rename_i m0 heq
    rw [if_pos hv] at h
    split at h
    · exact absurd h (by simp)
    · rename_i obs hpm
      split at h
      · exact absurd h (by simp)
      · rename_i hobs
        have h1 : m0 = m := by simpa using h
        have h2 : p.length ≤ obs :=
          le_pyMax (List.mem_map_of_mem List.length hp) hpm
        omega

theorem validate_ok_eq {cfg : EncoderConfig} {peptides : List (List Char)}
    {mpl : Option Nat} {m : Nat}
    (h : _validate_peptide_lengths cfg peptides mpl = .ok m)
    (hv : cfg.variable_length_sequences = false) :
    ∀ p ∈ peptides, p.length = m := by
  intro p hp
  unfold _validate_peptide_lengths at h
  split at h
  · exact absurd h (by simp)
  · rename_i m0 heq
    rw [if_neg (by simp [hv])] at h
    split at h
    · exact absurd h (by simp)
    · rename_i hf
      have h1 : m0 = m := by simpa using h
      have h2 := List.find?_eq_none.mp hf p hp
      simp at h2
      omega

theorem start_mem_structuralChars {cfg : EncoderConfig}
    (hs : cfg.add_start_tokens = true) : '^' ∈ structuralChars cfg := by
  simp [structuralChars, hs]

theorem stop_mem_structuralChars {cfg : EncoderConfig}
    (he : cfg.add_stop_tokens = true) : '$' ∈ structuralChars cfg := by
  simp [structuralChars, he]

theorem tokenChars_getD_zero {e : Encoder} (hinit : initTokens e.cfg = .ok e.toks)
    (hv : e.cfg.variable_length_sequences = true) :
    (tokenChars e).getD 0 ' ' = '-' := by
  rw [tokenChars, initTokens_ok_shape hinit]
  simp [structuralChars, hv]

theorem prepared_char_mem {e : Encoder} (hinit : initTokens e.cfg = .ok e.toks)
    {p : List Char} (hp : ∀ c ∈ p, c ∈ alphabetLetters e.cfg) :
    ∀ c ∈ affix e.cfg p, c ∈ tokenChars e := by
  intro c hc
  rw [tokenChars, initTokens_ok_shape hinit]
  rcases mem_affix hc with h | ⟨hs, rfl⟩ | ⟨he, rfl⟩
  · exact List.mem_append_right _ (hp c h)
  · exact List.mem_append_left _ (start_mem_structuralChars hs)
  · exact List.mem_append_left _ (stop_mem_structuralChars he)

theorem oneHotRow_sum (w idx : Nat) :
    (oneHotRow w idx).sum = if idx < w then (1 : ℚ) else 0 := by
  induction w with
  | zero => simp [oneHotRow]
  | succ n ih =>
    rw [oneHotRow, List.range_succ, List.map_append, List.sum_append, ← oneHotRow, ih]
    by_cases h1 : idx < n
    · have h2 : idx < n + 1 := by omega
      have h3 : ¬(idx = n) := by omega
      simp [h1, h2, h3]
    · by_cases h4 : idx = n
      · subst h4
        simp [h1]
      · have h5 : ¬(idx < n + 1) := by omega
        simp [h1, h4, h5]

theorem oneHotRow_getD {w idx : Nat} (h : idx < w) :
    (oneHotRow w idx).getD idx 0 = 1 := by
  have hlen : idx < (oneHotRow w idx).length := by simp [oneHotRow, h]
  rw [List.getD_eq_getElem?_getD, List.getElem?_eq_getElem hlen]
  simp [oneHotRow]

theorem oneHotRow_getD_ne {w idx k : Nat} (hk : k < w) (hne : idx ≠ k) :
    (oneHotRow w idx).getD k 0 = 0 := by
  have hlen : k < (oneHotRow w idx).length := by simp [oneHotRow, hk]
  rw [List.getD_eq_getElem?_getD, List.getElem?_eq_getElem hlen]
  simp [oneHotRow, hne]

theorem foldl_accum_eval (f : Nat → Nat) (w1 w2 : Nat → ℚ) (b : Bool) (V : Nat) :
    ∀ (n : Nat) (acc : Nat → ℚ) (k : Nat),
    ((List.range n).foldl (fun acc j =>
      let aaIdx := f j
      let acc1 : Nat → ℚ := fun k => if k = aaIdx then acc k + w1 j else acc k
      if b then
        (fun k => if k = V + aaIdx then acc1 k + w2 j else acc1 k)
      else acc1)
      acc) k
    = acc k + ((List.range n).map (fun j =>
        (if k = f j then w1 j else 0)
          + (if b = true ∧ k = V + f j then w2 j else 0))).sum := by
  intro n
  induction n with
  | zero => intro acc k; simp
  | succ n ih =>
    intro acc k
    rw [List.range_succ, List.foldl_append, List.map_append, List.sum_append]
    simp only [List.foldl_cons, List.foldl_nil, List.map_cons, List.map_nil,
      List.sum_cons, List.sum_nil]
    cases hb : b <;> simp only [hb] at ih ⊢
    · by_cases hk : k = f n <;>
        simp only [Bool.false_eq_true, false_and, if_false, ite_false, hk,
          ite_true, if_pos, if_neg] at ih ⊢ <;>
        rw [ih] <;> ring
    · by_cases hk2 : k = V + f n <;> by_cases hk1 : k = f n
      · have hVf : V + f n = f n := hk2.symm.trans hk1
        simp only [true_and, hk1, hVf, eq_self_iff_true, ite_true] at ih ⊢
        rw [ih]; ring
      · have hVf : ¬(V + f n = f n) := fun h => hk1 (hk2.trans h)
        simp only [true_and, hk2, hVf, eq_self_iff_true, ite_true, ite_false,
          if_false] at ih ⊢
        rw [ih]; ring
      · have hVf : ¬(f n = V + f n) := fun h => hk2 (hk1.trans h)
        simp only [true_and, hk1, hVf, eq_self_iff_true, ite_true, ite_false,
          if_false] at ih ⊢
        rw [ih]; ring
      · simp only [true_and, hk1, hk2, ite_true, ite_false, if_false,
          eq_self_iff_true] at ih ⊢
        rw [ih]; ring

theorem fofeRow_eval (e : Encoder) (alpha : ℚ) (bidirectional : Bool)
    (p : List Char) (k : Nat) :
    fofeRow e alpha bidirectional p k
      = ((List.range p.length).map (fun j =>
          (if k = index_dict e (p.getD j ' ')
            then alpha ^ (p.length - j - 1) else 0)
          + (if bidirectional = true
              ∧ k = (tokenChars e).length + index_dict e (p.getD j ' ')
            then alpha ^ j else 0))).sum := by
  have h := foldl_accum_eval (fun j => index_dict e (p.getD j ' '))
    (fun j => alpha ^ (p.length - j - 1)) (fun j => alpha ^ j) bidirectional
    (tokenChars e).length p.length (fun _ => 0) k
  simpa [fofeRow] using h

/-- C5: for every flag combination and every alphabet accepted by the
constructor, the vocabulary size is
`(variable ? 1 : 0) + (start ? 1 : 0) + (stop ? 1 : 0) + |alphabet|`, the
token list is gap, start, stop (each if enabled) followed by the alphabet
letters in order, the index of the `i`-th token is exactly `i` (contiguous
range in insertion order), and the gap token, when present, has index 0. -/
theorem C5_vocabulary (cfg : EncoderConfig) (toks : List (Char × String))
    (hinit : initTokens cfg = .ok toks) :
    toks.length = (if cfg.variable_length_sequences then 1 else 0)
        + (if cfg.add_start_tokens then 1 else 0)
        + (if cfg.add_stop_tokens then 1 else 0)
        + cfg.amino_acid_alphabet.length
    ∧ toks.map Prod.fst = structuralChars cfg ++ alphabetLetters cfg
    ∧ (∀ i, i < toks.length →
        dictIndex (toks.map Prod.fst) ((toks.map Prod.fst).getD i ' ') = i)
    ∧ (cfg.variable_length_sequences = true →
        dictIndex (toks.map Prod.fst) '-' = 0) := by
  have hshape := initTokens_ok_shape hinit
  have hnd := initTokens_ok_nodup hinit
  refine ⟨?_, hshape, ?_, ?_⟩
  · have h1 : toks.length = (structuralChars cfg).length + (alphabetLetters cfg).length := by
      have h := congrArg List.length hshape
      simpa using h
    have h2 : (structuralChars cfg).length =
        (if cfg.variable_length_sequences then 1 else 0)
          + (if cfg.add_start_tokens then 1 else 0)
          + (if cfg.add_stop_tokens then 1 else 0) := by
      cases hv : cfg.variable_length_sequences <;>
        cases hs : cfg.add_start_tokens <;>
        cases he : cfg.add_stop_tokens <;>
        simp [structuralChars, hv, hs, he]
    have h3 : (alphabetLetters cfg).length = cfg.amino_acid_alphabet.length := by
      simp [alphabetLetters]
    omega
  · intro i hi
    have hi' : i < (toks.map Prod.fst).length := by simpa using hi
    exact dictIndex_getD_of_nodup hnd hi' ' '
  · intro hv
    rw [hshape]
    simp [structuralChars, hv, dictIndex]

/-- Witness for C5 at the all-flags configuration `cfgVSS` with a 2-letter
alphabet: the table has 1 + 1 + 1 + 2 entries and the gap token has index 0. -/
theorem C5_vocabulary_witness :
    toksVSS.length = 1 + 1 + 1 + 2
    ∧ dictIndex (toksVSS.map Prod.fst) '-' = 0 := by
  have h := C5_vocabulary cfgVSS toksVSS rfl
  exact ⟨by simpa using h.1, h.2.2.2 rfl⟩

/-- C9: `encode_index_array` fails with the unsupported-combination error
whenever normalized-position or normalized-centrality augmentation is
enabled, for every batch (the asserts run before anything else). -/
theorem C9_index_rejects_augmentation (e : Encoder) (peptides : List (List Char))
    (mpl : Option Nat)
    (h : e.cfg.add_normalized_position = true ∨ e.cfg.add_normalized_centrality = true) :
    encode_index_array e peptides mpl = .error .unsupportedCombination := by
  unfold encode_index_array
  rcases h with h | h <;> simp [h]

/-- Witness for C9: a variable-length encoder with `add_normalized_position`
rejects a one-peptide batch. -/
theorem C9_index_rejects_augmentation_witness :
    encode_index_array encPos [['A']] none = .error .unsupportedCombination :=
  C9_index_rejects_augmentation encPos [['A']] none (Or.inl rfl)

/-- C10: on the empty batch, every fixed-shape encoder errors whenever
`max_length` is omitted or `variable_length_sequences` is enabled, because
the validation step computes `max()` of an empty sequence; no empty tensor is
returned.  (`_encode_from_pairwise_properties` stands for both `encode_pmbec`
and `encode_blosum`, which only fix the matrix argument.) -/
theorem C10_empty_batch (e : Encoder) (mpl : Option Nat)
    (letterIndex : Char → Nat) (matrix : Nat → Nat → ℚ)
    (h : mpl = none ∨ e.cfg.variable_length_sequences = true) :
    isErr (encode_index_array e [] mpl) = true
    ∧ isErr (encode_onehot e [] mpl) = true
    ∧ isErr (_encode_from_pairwise_properties e letterIndex matrix [] mpl) = true := by
  have herr : _validate_peptide_lengths e.cfg [] mpl = .error .emptyMax := by
    rcases h with rfl | hv
    · rfl
    · cases mpl with
      | none => rfl
      | some m => simp [_validate_peptide_lengths, resolved_max, pyMax, hv]
  have hvp : _validate_and_prepare_peptides e.cfg [] mpl = .error .emptyMax := by
    unfold _validate_and_prepare_peptides
    rw [herr]
  refine ⟨?_, ?_, ?_⟩
  · unfold encode_index_array
    split
    · rfl
    · rw [hvp]
      rfl
  · unfold encode_onehot
    rw [hvp]
    rfl
  · unfold _encode_from_pairwise_properties
    rw [hvp]
    rfl

/-- Witness for C10 at the variable-length encoder `encW` with omitted
`max_length`. -/
theorem C10_empty_batch_witness :
    isErr (encode_index_array encW [] none) = true
    ∧ isErr (encode_onehot encW [] none) = true
    ∧ isErr (_encode_from_pairwise_properties encW letterIndexW matrixW [] none) = true :=
  C10_empty_batch encW none letterIndexW matrixW (Or.inl rfl)

/-- Counterexample to C3: with start and stop tokens enabled,
`prepare(["AC"], target_length=6)` returns `"^AC$----"` (the method bumps the
pad target once per enabled affix, i.e. to 8), not the `"^AC$--"` the claim
asserts. -/
theorem C3_counterexample :
    prepare_sequences cfgSS [['A', 'C']] (some 6)
        = [['^', 'A', 'C', '$', '-', '-', '-', '-']]
    ∧ [['^', 'A', 'C', '$', '-', '-', '-', '-']] ≠ [['^', 'A', 'C', '$', '-', '-']] :=
  ⟨by decide, by decide⟩

/-- C3 as amended: for every positive `target_length`, `prepare_sequences`
prepends the start token if enabled, appends the stop token if enabled, and
right-pads with the gap token up to `target_length + 1 per enabled affix`
(the method adds the affix allowance itself; a peptide already at least that
long is left unpadded); the padded length of entry `i` is the maximum of the
affixed length and the bumped target. -/
theorem C3_prepare_padding (cfg : EncoderConfig) (peptides : List (List Char))
    (t : Nat) (ht : 0 < t) :
    prepare_sequences cfg peptides (some t) = peptides.map (fun p =>
      affix cfg p ++ List.replicate
        (t + (if cfg.add_start_tokens then 1 else 0)
           + (if cfg.add_stop_tokens then 1 else 0) - (affix cfg p).length) '-')
    ∧ ∀ i, i < peptides.length →
        ((prepare_sequences cfg peptides (some t)).getD i []).length
          = max ((affix cfg (peptides.getD i [])).length)
              (t + (if cfg.add_start_tokens then 1 else 0)
                 + (if cfg.add_stop_tokens then 1 else 0)) := by
  have heq := prepare_some_eq cfg peptides ht
  refine ⟨heq, ?_⟩
  intro i hi
  rw [heq]
  have hi' : i < (peptides.map (fun p =>
      affix cfg p ++ List.replicate
        (t + (if cfg.add_start_tokens then 1 else 0)
           + (if cfg.add_stop_tokens then 1 else 0) - (affix cfg p).length) '-')).length := by
    simpa using hi
  rw [List.getD_eq_getElem?_getD, List.getElem?_eq_getElem hi']
  have hgd : peptides.getD i [] = peptides[i] := by
    rw [List.getD_eq_getElem?_getD, List.getElem?_eq_getElem hi]
    rfl
  simp only [List.getElem_map, Option.getD_some, List.length_append,
    List.length_replicate, hgd]
  omega

/-- Witness for C3 as amended, at the counterexample input. -/
theorem C3_prepare_padding_witness :
    prepare_sequences cfgSS [['A', 'C']] (some 6)
        = [['^', 'A', 'C', '$', '-', '-', '-', '-']]
    ∧ (0 : Nat) < 6 := by
  constructor
  · have h := (C3_prepare_padding cfgSS [['A', 'C']] 6 (by decide)).1
    rw [h]
    decide
  · decide

/-- C1: `_validate_peptide_lengths` raises a length-mismatch error **iff**
the length rules are violated — with `max_length` defaulting to the longest
raw peptide when omitted, variable-length mode errors exactly when some raw
peptide is longer than the resolved maximum, fixed-length mode errors exactly
when some raw peptide differs from it — and on success
`_validate_and_prepare_peptides` returns the resolved maximum plus 1 for each
enabled start/stop token.  (On an empty batch the source raises the distinct
empty-`max()` `ValueError`, not a length-mismatch error, so the equivalence
still holds there.) -/
theorem C1_validate (cfg : EncoderConfig) (peptides : List (List Char))
    (mpl : Option Nat) :
    ((∃ obs expected offender, _validate_peptide_lengths cfg peptides mpl
        = .error (.lengthMismatch obs expected offender))
      ↔ (∃ m, resolved_max peptides mpl = some m
          ∧ ((cfg.variable_length_sequences = true ∧ ∃ p ∈ peptides, m < p.length)
            ∨ (cfg.variable_length_sequences = false ∧ ∃ p ∈ peptides, p.length ≠ m))))
    ∧ (∀ prepared L,
        _validate_and_prepare_peptides cfg peptides mpl = .ok (prepared, L)
        → ∀ m, resolved_max peptides mpl = some m
        → L = m + (if cfg.add_start_tokens then 1 else 0)
            + (if cfg.add_stop_tokens then 1 else 0)) := by
  constructor
  · constructor
    · rintro ⟨obs, expected, offender, herr⟩
      unfold _validate_peptide_lengths at herr
      split at herr
      · exact absurd herr (by simp)
      · rename_i m0 heq
        split at herr
        · rename_i hv
          split at herr
          · exact absurd herr (by simp)
          · rename_i obs2 hpm
            split at herr
            · rename_i hlt
              refine ⟨m0, heq, Or.inl ⟨hv, ?_⟩⟩
              rcases List.mem_map.mp (pyMax_mem hpm) with ⟨p, hp, hlen⟩
              exact ⟨p, hp, by omega⟩
            · exact absurd herr (by simp)
        · rename_i hv
          split at herr
          · rename_i ex2 hf
            refine ⟨m0, heq, Or.inr ⟨by simpa using hv, ?_⟩⟩
            have hmem := List.mem_of_find?_eq_some hf
            have hpred := List.find?_some hf
            simp at hpred
            exact ⟨ex2, hmem, hpred⟩
          · exact absurd herr (by simp)
    · rintro ⟨m, hm, hcase⟩
      rcases hcase with ⟨hv, p, hp, hlen⟩ | ⟨hv, p, hp, hne⟩
      · cases hpm : pyMax (peptides.map List.length) with
        | none =>
          rw [pyMax_eq_none_iff] at hpm
          simp only [List.map_eq_nil_iff] at hpm
          subst hpm
          simp at hp
        | some obs =>
          have hobs : m < obs :=
            Nat.lt_of_lt_of_le hlen (le_pyMax (List.mem_map_of_mem List.length hp) hpm)
          refine ⟨obs, m, (peptides.filter (fun p => p.length == obs)).headD [], ?_⟩
          simp only [_validate_peptide_lengths, hm, hv, if_true, hpm, if_pos hobs]
      · cases hf : peptides.find? (fun q => q.length != m) with
        | none =>
          have := List.find?_eq_none.mp hf p hp
          simp at this
          exact absurd this hne
        | some ex =>
          refine ⟨ex.length, m, ex, ?_⟩
          simp only [_validate_peptide_lengths, hm, hv, Bool.false_eq_true,
            if_false, hf]
  · intro prepared L hok m hm
    unfold _validate_and_prepare_peptides at hok
    cases hval : _validate_peptide_lengths cfg peptides mpl with
    | error err => rw [hval] at hok; exact absurd hok (by simp)
    | ok m0 =>
      rw [hval] at hok
      have hres := validate_ok_resolved hval
      rw [hm] at hres
      have hm0 : m = m0 := by simpa using hres
      have hL : L = m0 + (if cfg.add_start_tokens then 1 else 0)
          + (if cfg.add_stop_tokens then 1 else 0) := by
        have := congrArg (fun x => match x with
          | Except.ok (pr : List (List Char) × Nat) => pr.2
          | Except.error _ => 0) hok
        simpa using this.symm
      omega

/-- Witness for C1 at a successful fixed-length call with a start token:
the returned effective length is the resolved maximum 2 plus 1. -/
theorem C1_validate_witness :
    _validate_and_prepare_peptides cfgStart [['A', 'C']] none
        = .ok ([['^', 'A', 'C']], 3)
    ∧ resolved_max [['A', 'C']] none = some 2
    ∧ 3 = 2 + 1 + 0 :=
  ⟨rfl, by decide,
    (C1_validate cfgStart [['A', 'C']] none).2 [['^', 'A', 'C']] 3 rfl 2 (by decide)⟩

/-- C6: `encode_FOFE` only affixes start/stop tokens (no validation, no
padding — the theorem holds for arbitrary mixed-length batches with no length
hypothesis), and for the `i`-th prepared peptide `p` of length `l` the output
row holds, at vocabulary index `k`, the forward accumulator
`Σ_j [index(token_j) = k] * alpha ^ (l - 1 - j)`; when bidirectional, the
entry at `n_symbols + k` holds the reverse accumulator with weights
`alpha ^ j`, and the row width doubles from `n_symbols` to `2 * n_symbols`. -/
theorem C6_fofe (e : Encoder) (peptides : List (List Char)) (alpha : ℚ)
    (bidirectional : Bool)
    (hinit : initTokens e.cfg = .ok e.toks)
    (hchars : ∀ p ∈ peptides, ∀ c ∈ p, c ∈ alphabetLetters e.cfg) :
    (encode_FOFE e peptides alpha bidirectional).length = peptides.length
    ∧ (∀ r ∈ encode_FOFE e peptides alpha bidirectional,
        r.length = if bidirectional then 2 * (tokenChars e).length
          else (tokenChars e).length)
    ∧ (∀ i, i < peptides.length →
        ∀ p, (prepare_sequences e.cfg peptides none).getD i [] = p →
        ∀ k, k < (tokenChars e).length →
          (((encode_FOFE e peptides alpha bidirectional).getD i []).getD k 0
            = ((List.range p.length).map (fun j =>
                if k = index_dict e (p.getD j ' ')
                then alpha ^ (p.length - j - 1) else 0)).sum
          ∧ (bidirectional = true →
              ((encode_FOFE e peptides alpha bidirectional).getD i []).getD
                  ((tokenChars e).length + k) 0
                = ((List.range p.length).map (fun j =>
                    if k = index_dict e (p.getD j ' ')
                    then alpha ^ j else 0)).sum))) := by
  have hlen : (prepare_sequences e.cfg peptides none).length = peptides.length := by
    rw [prepare_none_eq]
    simp
  refine ⟨?_, ?_, ?_⟩
  · unfold encode_FOFE
    simpa using hlen
  · intro r hr
    unfold encode_FOFE at hr
    rcases List.mem_map.mp hr with ⟨p, hp, rfl⟩
    simp
  · intro i hi p hp k hk
    have hi' : i < (prepare_sequences e.cfg peptides none).length := by omega
    have hcell : (encode_FOFE e peptides alpha bidirectional).getD i []
        = (List.range (if bidirectional then 2 * (tokenChars e).length
            else (tokenChars e).length)).map (fofeRow e alpha bidirectional p) := by
      unfold encode_FOFE
      have hi2 : i < ((prepare_sequences e.cfg peptides none).map (fun p =>
          (List.range (if bidirectional then 2 * (tokenChars e).length
            else (tokenChars e).length)).map (fofeRow e alpha bidirectional p))).length := by
        simpa using hi'
      rw [List.getD_eq_getElem?_getD, List.getElem?_eq_getElem hi2, List.getElem_map]
      have hpe : (prepare_sequences e.cfg peptides none)[i] = p := by
        rw [← hp, List.getD_eq_getElem?_getD, List.getElem?_eq_getElem hi']
        rfl
      rw [hpe]
      rfl
    have hpe2 : p = affix e.cfg (peptides.getD i []) := by
      rw [← hp, prepare_none_eq]
      have hi2 : i < (peptides.map (affix e.cfg)).length := by simpa using hi
      rw [List.getD_eq_getElem?_getD, List.getElem?_eq_getElem hi2]
      rw [List.getD_eq_getElem?_getD, List.getElem?_eq_getElem hi]
      simp
    have hpep : peptides.getD i [] ∈ peptides := by
      rw [List.getD_eq_getElem?_getD, List.getElem?_eq_getElem hi]
      exact List.getElem_mem hi
    have hmem : ∀ c ∈ p, c ∈ tokenChars e := by
      rw [hpe2]
      exact prepared_char_mem hinit (hchars _ hpep)
    constructor
    · have hkw : k < (if bidirectional then 2 * (tokenChars e).length
          else (tokenChars e).length) := by
        cases bidirectional <;> simp <;> omega
      have hkw' : k < ((List.range (if bidirectional then 2 * (tokenChars e).length
          else (tokenChars e).length)).map (fofeRow e alpha bidirectional p)).length := by
        simpa using hkw
      rw [hcell, List.getD_eq_getElem?_getD, List.getElem?_eq_getElem hkw']
      simp only [List.getElem_map, List.getElem_range, Option.getD_some]
      rw [fofeRow_eval]
      apply congrArg List.sum
      apply List.map_congr_left
      intro j hj
      have hbz : ¬(bidirectional = true
          ∧ k = (tokenChars e).length + index_dict e (p.getD j ' ')) := by
        rintro ⟨_, hkk⟩
        omega
      rw [if_neg hbz, add_zero]
    · intro hb
      subst hb
      have hkw : (tokenChars e).length + k < 2 * (tokenChars e).length := by omega
      have hkw' : (tokenChars e).length + k
          < ((List.range (2 * (tokenChars e).length)).map
              (fofeRow e alpha true p)).length := by
        simpa using hkw
      rw [hcell]
      simp only [if_true, ite_true]
      rw [List.getD_eq_getElem?_getD, List.getElem?_eq_getElem hkw']
      simp only [List.getElem_map, List.getElem_range, Option.getD_some]
      rw [fofeRow_eval]
      apply congrArg List.sum
      apply List.map_congr_left
      intro j hj
      have hj' : j < p.length := List.mem_range.mp hj
      have hidx : index_dict e (p.getD j ' ') < (tokenChars e).length := by
        apply dictIndex_lt_length
        apply hmem
        rw [List.getD_eq_getElem?_getD, List.getElem?_eq_getElem hj']
        exact List.getElem_mem hj'
      have h1 : ¬((tokenChars e).length + k = index_dict e (p.getD j ' ')) := by
        omega
      rw [if_neg h1, zero_add]
      exact if_congr
        ⟨fun hc => by rcases hc with ⟨_, h2⟩; omega, fun hc => ⟨rfl, by omega⟩⟩
        rfl rfl

/-- Witness for C6 at `encW`, batch `["AC"]`, `alpha = 1/2`, bidirectional:
the forward entry for the letter A (index 1) is `(1/2)^1 = 1/2` and the
backward entry for A (index `3 + 1`) is `(1/2)^0 = 1`. -/
theorem C6_fofe_witness :
    ((encode_FOFE encW [['A', 'C']] (1/2) true).getD 0 []).getD 1 0 = 1/2
    ∧ ((encode_FOFE encW [['A', 'C']] (1/2) true).getD 0 []).getD
        ((tokenChars encW).length + 1) 0 = 1 := by
  have h := (C6_fofe encW [['A', 'C']] (1/2) true rfl (by decide)).2.2
    0 (by decide) ['A', 'C'] (by decide) 1 (by decide)
  constructor
  · rw [h.1]
    simp +decide [List.range_succ, index_dict, dictIndex, tokenChars, encW,
      cfgW, alphaAC]
  · rw [h.2 rfl]
    simp +decide [List.range_succ, index_dict, dictIndex, tokenChars, encW,
      cfgW, alphaAC]

/-- Counterexample to C2: in variable-length mode with batch `["A", "AC"]`,
the trailing cell of the shorter peptide has **all** channels 0 — its channel
sum is 0, not 1, and in particular the gap channel (index 0) is 0, because
`_validate_and_prepare_peptides` never pads and `encode_onehot` leaves the
`np.zeros` fill in place. -/
theorem C2_counterexample :
    encode_onehot encW [['A'], ['A', 'C']] none
        = .ok [[[0, 1, 0], [0, 0, 0]], [[0, 1, 0], [0, 0, 1]]]
    ∧ channelSum [[[0, 1, 0], [0, 0, 0]], [[0, 1, 0], [0, 0, 1]]] 0 1 = 0
    ∧ (0 : ℚ) ≠ 1 :=
  ⟨rfl, by norm_num [channelSum], by norm_num⟩

/-- C2 as amended: for every batch accepted by `encode_onehot` (augmentation
flags off), every cell at a position `j` within the affixed content of its
peptide has channel sum 1 with the 1 at that position's vocabulary index,
while every trailing position up to the effective length has **all** channels
0 — channel sum 0 and, contrary to the original claim, a 0 (not 1) in the
gap channel. -/
theorem C2_onehot (e : Encoder) (peptides : List (List Char)) (mpl : Option Nat)
    (X : List (List (List ℚ))) (prepared : List (List Char)) (L : Nat)
    (hinit : initTokens e.cfg = .ok e.toks)
    (hflags : e.cfg.add_normalized_position = false
      ∧ e.cfg.add_normalized_centrality = false)
    (hchars : ∀ p ∈ peptides, ∀ c ∈ p, c ∈ alphabetLetters e.cfg)
    (hprep : _validate_and_prepare_peptides e.cfg peptides mpl = .ok (prepared, L))
    (hok : encode_onehot e peptides mpl = .ok X) :
    X.length = peptides.length
    ∧ (∀ i, i < X.length → (X.getD i []).length = L)
    ∧ (∀ i j, i < X.length → j < L →
        if j < (prepared.getD i []).length then
          channelSum X i j = 1
          ∧ ((X.getD i []).getD j []).getD
              (index_dict e ((prepared.getD i []).getD j ' ')) 0 = 1
        else
          channelSum X i j = 0
          ∧ ((X.getD i []).getD j []).getD 0 0 = 0) := by
  have hok' : _add_extra_features e.cfg
      (prepared.map (fun p => (List.range L).map (fun j =>
        match p[j]? with
        | some c => oneHotRow (tokenChars e).length (index_dict e c)
        | none => List.replicate (tokenChars e).length 0))) prepared = .ok X := by
    unfold encode_onehot at hok
    rw [hprep] at hok
    exact hok
  have hXf : X = prepared.map (fun p => (List.range L).map (fun j =>
      match p[j]? with
      | some c => oneHotRow (tokenChars e).length (index_dict e c)
      | none => List.replicate (tokenChars e).length 0)) := by
    unfold _add_extra_features at hok'
    rw [hflags.1, hflags.2] at hok'
    simpa using hok'.symm
  have hpr : prepared = prepare_sequences e.cfg peptides none := by
    unfold _validate_and_prepare_peptides at hprep
    cases hval : _validate_peptide_lengths e.cfg peptides mpl with
    | error err => rw [hval] at hprep; exact absurd hprep (by simp)
    | ok m0 =>
      rw [hval] at hprep
      simp only [Except.ok.injEq, Prod.mk.injEq] at hprep
      exact hprep.1.symm
  have hplen : prepared.length = peptides.length := by
    rw [hpr, prepare_none_eq]
    simp
  have hXlen : X.length = peptides.length := by
    rw [hXf]
    simpa using hplen
  refine ⟨hXlen, ?_, ?_⟩
  · intro i hi
    have hi2 : i < prepared.length := by omega
    have hi3 : i < (prepared.map (fun p => (List.range L).map (fun j =>
        match p[j]? with
        | some c => oneHotRow (tokenChars e).length (index_dict e c)
        | none => List.replicate (tokenChars e).length 0))).length := by
      simpa using hi2
    rw [hXf, List.getD_eq_getElem?_getD, List.getElem?_eq_getElem hi3]
    simp
  · intro i j hi hj
    have hi2 : i < prepared.length := by
      rw [hplen]
      omega
    have hi3 : i < (prepared.map (fun p => (List.range L).map (fun j =>
        match p[j]? with
        | some c => oneHotRow (tokenChars e).length (index_dict e c)
        | none => List.replicate (tokenChars e).length 0))).length := by
      simpa using hi2
    have hrow : (X.getD i []) = (List.range L).map (fun j =>
        match (prepared.getD i [])[j]? with
        | some c => oneHotRow (tokenChars e).length (index_dict e c)
        | none => List.replicate (tokenChars e).length 0) := by
      rw [hXf, List.getD_eq_getElem?_getD, List.getElem?_eq_getElem hi3,
        List.getElem_map]
      have : prepared[i] = prepared.getD i [] := by
        rw [List.getD_eq_getElem?_getD, List.getElem?_eq_getElem hi2]
        rfl
      rw [this]
      rfl
    have hj2 : j < ((List.range L).map (fun j =>
        match (prepared.getD i [])[j]? with
        | some c => oneHotRow (tokenChars e).length (index_dict e c)
        | none => List.replicate (tokenChars e).length 0)).length := by
      simpa using hj
    have hcell : (X.getD i []).getD j [] = (match (prepared.getD i [])[j]? with
        | some c => oneHotRow (tokenChars e).length (index_dict e c)
        | none => List.replicate (tokenChars e).length 0) := by
      rw [hrow, List.getD_eq_getElem?_getD, List.getElem?_eq_getElem hj2]
      simp
    have hpmem : prepared.getD i [] ∈ prepared := by
      rw [List.getD_eq_getElem?_getD, List.getElem?_eq_getElem hi2]
      exact List.getElem_mem hi2
    have hmem' : ∀ c ∈ prepared.getD i [], c ∈ tokenChars e := by
      have hpm2 : prepared.getD i [] ∈ peptides.map (affix e.cfg) := by
        rw [← prepare_none_eq, ← hpr]
        exact hpmem
      rcases List.mem_map.mp hpm2 with ⟨q, hq, hpq⟩
      rw [← hpq]
      exact prepared_char_mem hinit (hchars q hq)
    by_cases hjp : j < (prepared.getD i []).length
    · rw [if_pos hjp]
      have hsome : (prepared.getD i [])[j]? = some ((prepared.getD i [])[j]) :=
        List.getElem?_eq_getElem hjp
      have hgd : (prepared.getD i []).getD j ' ' = (prepared.getD i [])[j] := by
        rw [List.getD_eq_getElem?_getD, hsome]
        rfl
      have hcmem : (prepared.getD i [])[j] ∈ prepared.getD i [] :=
        List.getElem_mem hjp
      have hidx : index_dict e ((prepared.getD i [])[j]) < (tokenChars e).length :=
        dictIndex_lt_length (hmem' _ hcmem)
      constructor
      · rw [channelSum, hcell, hsome]
        simp only [oneHotRow_sum]
        rw [if_pos hidx]
      · rw [hcell, hsome, hgd]
        exact oneHotRow_getD hidx
    · rw [if_neg hjp]
      have hnone : (prepared.getD i [])[j]? = none :=
        List.getElem?_eq_none (by omega)
      constructor
      · rw [channelSum, hcell, hnone]
        simp [List.sum_replicate]
      · rw [hcell, hnone]
        rw [List.getD_eq_getElem?_getD, List.getElem?_replicate]
        split <;> rfl

/-- Witness for C2 as amended, at the counterexample batch: the in-content
cell (1, 1) has channel sum 1, and the trailing cell (0, 1) has channel sum 0
with gap channel 0. -/
theorem C2_onehot_witness :
    (if (1 : Nat) < (([['A'], ['A', 'C']] : List (List Char)).getD 0 []).length
      then channelSum [[[0, 1, 0], [0, 0, 0]], [[0, 1, 0], [0, 0, 1]]] 0 1 = 1
        ∧ ((([[[0, 1, 0], [0, 0, 0]], [[0, 1, 0], [0, 0, 1]]]
              : List (List (List ℚ))).getD 0 []).getD 1 []).getD
            (index_dict encW (([['A'], ['A', 'C']] : List (List Char)).getD 0 [] |>.getD 1 ' ')) 0 = 1
      else channelSum [[[0, 1, 0], [0, 0, 0]], [[0, 1, 0], [0, 0, 1]]] 0 1 = 0
        ∧ ((([[[0, 1, 0], [0, 0, 0]], [[0, 1, 0], [0, 0, 1]]]
              : List (List (List ℚ))).getD 0 []).getD 1 []).getD 0 0 = 0) :=
  (C2_onehot encW [['A'], ['A', 'C']] none
      [[[0, 1, 0], [0, 0, 0]], [[0, 1, 0], [0, 0, 1]]] [['A'], ['A', 'C']] 2
      rfl ⟨rfl, rfl⟩ (by decide) rfl rfl).2.2 0 1 (by decide) (by decide)

theorem centralityRow_getD {l j : Nat} (hj : j < l) :
    (centralityRow l).getD j 0
      = |(j : ℚ) - ((l : ℚ) - 1) / 2| / (((l : ℚ) - 1) / 2) := by
  have hj2 : j < (centralityRow l).length := by
    rw [centralityRow, List.length_map, List.length_range]
    exact hj
  rw [List.getD_eq_getElem?_getD, List.getElem?_eq_getElem hj2]
  simp only [centralityRow, List.getElem_map, List.getElem_range,
    Option.getD_some]

theorem positionRow_getD {l j : Nat} (hj : j < l) :
    (positionRow l).getD j 0 = (j : ℚ) / (l : ℚ) := by
  have hj2 : j < (positionRow l).length := by
    rw [positionRow, List.length_map, List.length_range]
    exact hj
  rw [List.getD_eq_getElem?_getD, List.getElem?_eq_getElem hj2]
  simp only [positionRow, List.getElem_map, List.getElem_range,
    Option.getD_some]

theorem positionRow_one_getD (j : Nat) : (positionRow 1).getD j 0 = 0 := by
  cases j with
  | zero =>
    rw [positionRow_getD (by omega)]
    norm_num
  | succ n =>
    rw [List.getD_eq_getElem?_getD, List.getElem?_eq_none]
    · rfl
    · rw [positionRow, List.length_map, List.length_range]
      omega

theorem centralityScratch_eq {peptides : List (List Char)} {i : Nat}
    (h : i < peptides.length) (j : Nat) :
    centralityScratch peptides i j
      = (centralityRow (peptides[i]).length).getD j 0 := by
  unfold centralityScratch
  rw [List.getElem?_eq_getElem h]

theorem positionScratch_eq {peptides : List (List Char)} {i : Nat}
    (h : i < peptides.length) (j : Nat) :
    positionScratch peptides i j
      = (positionRow (peptides[i]).length).getD j 0 := by
  unfold positionScratch
  rw [List.getElem?_eq_getElem h]

theorem scratchLoopError_eq_none {n maxLen : Nat} :
    ∀ (i : Nat) (ps : List (List Char)), i + ps.length ≤ n →
    (∀ p ∈ ps, p.length = maxLen ∨ p.length = 1) →
    scratchLoopError n maxLen i ps = none := by
  intro i ps
  induction ps generalizing i with
  | nil => intro _ _; rfl
  | cons p rest ih =>
    intro hle hall
    unfold scratchLoopError
    rw [if_neg (by simp at hle ⊢; omega)]
    have h1 : (p.length != maxLen && p.length != 1) = false := by
      rcases hall p (by simp) with h | h <;> simp [h]
    rw [h1]
    simp only [Bool.false_eq_true, if_false]
    refine ih (i + 1) (by simp at hle ⊢; omega) (fun q hq => hall q ?_)
    simp [hq]

/-- Counterexample to C7: under a configuration with a start token and
centrality augmentation, the augmentation applied to the **prepared**
peptide `"^AC"` (which is what `encode_onehot` and the property encoders
pass it) appends the centrality channel `[1, 0, 1]` computed over the
prepared length 3 — not the raw-length-based `[1, 1, 0]` the claim asserts
(the raw formula over length 2 gives centrality 1 at both raw offsets, as
the last two conjuncts exhibit, and the claim demands 0 beyond the raw
length). -/
theorem C7_counterexample :
    _add_extra_features cfgCent [[[1], [2], [3]]] [['^', 'A', 'C']]
        = .ok [[[1, 1], [2, 0], [3, 1]]]
    ∧ ([[(1 : ℚ), 0, 1]] ≠ [[1, 1, 0]])
    ∧ (centralityRow 2).getD 0 0 = 1
    ∧ (centralityRow 2).getD 1 0 = 1 := by
  have habs : |(1 : ℚ)/2| = 1/2 := abs_of_pos (by norm_num)
  refine ⟨?_, by norm_num, ?_, ?_⟩
  · unfold _add_extra_features
    norm_num [pyMax, List.range_succ, scratchLoopError, centralityScratch,
      positionScratch, centralityRow, positionRow, cfgCent, habs]
  · rw [centralityRow_getD (by norm_num)]
    norm_num [habs]
  · rw [centralityRow_getD (by norm_num)]
    norm_num [habs]

set_option maxHeartbeats 1600000 in
/-- C7 as amended: the augmentation computes its scalars over the
**prepared** (start/stop-affixed, unpadded) peptides it receives — not the
raw ones — using `j / l` and `|j - (l-1)/2| / ((l-1)/2)` over the prepared
length, and stacks the enabled channels in the fixed order [original,
centrality (if enabled), position (if enabled)].  A call succeeds exactly
when every prepared length equals the batch maximum `L` or is 1 (numpy
broadcasts the single-element `vec / l` row; any other mixed length is a
broadcast error), and for the surviving length-1 rows the position channel
is 0 at offset 0 (`0 / 1`) and stays 0 at every position beyond the prepared
length — the trailing-zeros clause of the original claim.  The centrality
channel of a length-1 row holds `NaN` (`0.0 / 0.0`) at offset 0 in the
source, a float artifact outside this rational model, so the centrality
clause is stated for batches of the uniform length `L`. -/
theorem C7_extra_features (cfg : EncoderConfig) (X : List (List (List ℚ)))
    (peptides : List (List Char)) (L : Nat)
    (hflag : cfg.add_normalized_position = true
      ∨ cfg.add_normalized_centrality = true)
    (hXlen : X.length = peptides.length)
    (hrows : ∀ r ∈ X, r.length = L)
    (hne : peptides ≠ [])
    (hlens : ∀ p ∈ peptides, p.length = L ∨ p.length = 1)
    (hex : ∃ p ∈ peptides, p.length = L)
    (hgeL : 1 ≤ L)
    (hcentL : cfg.add_normalized_centrality = true →
      2 ≤ L ∧ ∀ p ∈ peptides, p.length = L) :
    _add_extra_features cfg X peptides
      = .ok (X.mapIdx (fun i xrow => xrow.zipWith (fun cell (j : Nat) =>
          cell
            ++ (if cfg.add_normalized_centrality then
                  [|(j : ℚ) - ((L : ℚ) - 1) / 2| / (((L : ℚ) - 1) / 2)] else [])
            ++ (if cfg.add_normalized_position then
                  [if (peptides.getD i []).length = 1 then 0
                   else (j : ℚ) / (L : ℚ)] else []))
          (List.range L))) := by
  have hcond : (!cfg.add_normalized_position && !cfg.add_normalized_centrality)
      = false := by
    rcases hflag with h | h <;> simp [h]
  have hpm : pyMax (peptides.map List.length) = some L := by
    cases hp : pyMax (peptides.map List.length) with
    | none =>
      rw [pyMax_eq_none_iff] at hp
      simp only [List.map_eq_nil_iff] at hp
      exact absurd hp hne
    | some M =>
      rcases List.mem_map.mp (pyMax_mem hp) with ⟨q, hq, hMq⟩
      rcases hex with ⟨pL, hpL, hpLlen⟩
      have hLle : L ≤ M := by
        have := le_pyMax (List.mem_map_of_mem List.length hpL) hp
        omega
      have hML : M = L := by
        rcases hlens q hq with h1 | h1 <;> omega
      rw [hML]
  have hloop : scratchLoopError X.length L 0 peptides = none := by
    refine scratchLoopError_eq_none 0 peptides (by omega) hlens
  have hany2 : (X.any fun xrow => xrow.length != L) = false := by
    simp only [List.any_eq_false]
    intro r hr
    simp [hrows r hr]
  unfold _add_extra_features
  rw [hcond, hpm]
  show (match scratchLoopError X.length L 0 peptides with
    | some err => Except.error err
    | none =>
      if (X.any fun xrow => xrow.length != L) = true
      then Except.error EncErr.broadcastError
      else Except.ok (X.mapIdx (fun (i : Nat) (xrow : List (List ℚ)) =>
        xrow.zipWith (fun cell j =>
          cell
            ++ (if cfg.add_normalized_centrality then
                  [centralityScratch peptides i j] else [])
            ++ (if cfg.add_normalized_position then
                  [positionScratch peptides i j] else []))
          (List.range L)))) = _
  rw [hloop, hany2]
  show Except.ok (X.mapIdx (fun (i : Nat) (xrow : List (List ℚ)) =>
      xrow.zipWith (fun cell j =>
        cell
          ++ (if cfg.add_normalized_centrality then
                [centralityScratch peptides i j] else [])
          ++ (if cfg.add_normalized_position then
                [positionScratch peptides i j] else []))
        (List.range L))) = _
  refine congrArg Except.ok ?_
  apply List.ext_getElem
  · simp only [List.length_mapIdx]
  · intro i hi1 hi2
    simp only [List.getElem_mapIdx]
    have hiX : i < X.length := by
      rw [List.length_mapIdx] at hi1
      omega
    have hip : i < peptides.length := by omega
    have hgd : peptides.getD i [] = peptides[i] := by
      rw [List.getD_eq_getElem?_getD, List.getElem?_eq_getElem hip]
      rfl
    have hpmem : peptides[i] ∈ peptides := List.getElem_mem hip
    apply List.ext_getElem
    · simp only [List.length_zipWith, List.length_range]
    · intro j hj1 hj2
      have hjL : j < L := by
        rw [List.length_zipWith, List.length_range] at hj1
        omega
      simp only [List.getElem_zipWith, List.getElem_range]
      have hcent : (if cfg.add_normalized_centrality then
            [centralityScratch peptides i j] else [])
          = (if cfg.add_normalized_centrality then
              [|(j : ℚ) - ((L : ℚ) - 1) / 2| / (((L : ℚ) - 1) / 2)] else []) := by
        by_cases hc : cfg.add_normalized_centrality = true
        · rw [if_pos hc, if_pos hc, centralityScratch_eq hip,
            (hcentL hc).2 _ hpmem, centralityRow_getD hjL]
        · rw [if_neg hc, if_neg hc]
      have hpos : (if cfg.add_normalized_position then
            [positionScratch peptides i j] else [])
          = (if cfg.add_normalized_position then
              [if (peptides.getD i []).length = 1 then 0
               else (j : ℚ) / (L : ℚ)] else []) := by
        by_cases hc : cfg.add_normalized_position = true
        · rw [if_pos hc, if_pos hc, positionScratch_eq hip, hgd]
          rcases hlens _ hpmem with h1 | h1
          · by_cases hL1 : peptides[i].length = 1
            · rw [if_pos hL1, hL1, positionRow_one_getD]
            · rw [if_neg hL1, h1, positionRow_getD hjL]
          · rw [if_pos h1, h1, positionRow_one_getD]
        · rw [if_neg hc, if_neg hc]
      rw [hcent, hpos]

/-- Witness for C7 as amended, at the accepted mixed-length batch the
original amendment wrongly excluded: position augmentation on `["A", "ACD"]`
(no affixes, prepared lengths 1 and 3) succeeds, the length-1 row keeping
its position channel at 0 everywhere — including the trailing positions. -/
theorem C7_extra_features_witness :
    _add_extra_features cfgPos [[[1], [2], [3]], [[4], [5], [6]]]
        [['A'], ['A', 'C', 'D']]
      = .ok (([[[1], [2], [3]], [[4], [5], [6]]]
          : List (List (List ℚ))).mapIdx (fun i xrow =>
          xrow.zipWith (fun cell (j : Nat) =>
            cell
              ++ (if cfgPos.add_normalized_centrality then
                    [|(j : ℚ) - ((3 : ℚ) - 1) / 2| / (((3 : ℚ) - 1) / 2)] else [])
              ++ (if cfgPos.add_normalized_position then
                    [if (([['A'], ['A', 'C', 'D']]
                        : List (List Char)).getD i [] |>.length) = 1 then 0
                     else (j : ℚ) / (3 : ℚ)] else []))
            (List.range 3))) :=
  C7_extra_features cfgPos [[[1], [2], [3]], [[4], [5], [6]]]
    [['A'], ['A', 'C', 'D']] 3 (Or.inl rfl) rfl (by decide) (by decide)
    (by decide) (by decide) (by decide)
    (by intro h; exact absurd h (by decide))

theorem prepare_zero_eq (cfg : EncoderConfig) (peptides : List (List Char)) :
    prepare_sequences cfg peptides (some 0)
      = prepare_sequences cfg peptides none := by
  unfold prepare_sequences
  cases hs : cfg.add_start_tokens <;> cases he : cfg.add_stop_tokens <;>
    simp [pyTruthy, hs, he]

theorem decode_row_eq (toks : List Char) (p : List Char) (L : Nat)
    (hp : p.length ≤ L) (hmem : ∀ c ∈ p, c ∈ toks)
    (hgap : p.length = L ∨ toks.getD 0 ' ' = '-') :
    decodeRow toks ((List.range L).map (fun j =>
      match p[j]? with
      | some c => dictIndex toks c
      | none => 0))
    = p ++ List.replicate (L - p.length) '-' := by
  unfold decodeRow
  rw [List.map_map]
  apply List.ext_getElem
  · simp
    omega
  · intro i hi1 hi2
    simp only [List.getElem_map, List.getElem_range, Function.comp_apply]
    have hiL : i < L := by simpa using hi1
    by_cases hip : i < p.length
    · rw [List.getElem?_eq_getElem hip]
      have hmz : (match some p[i] with
          | some c => dictIndex toks c
          | none => 0) = dictIndex toks p[i] := rfl
      rw [hmz, getD_dictIndex (hmem _ (List.getElem_mem hip)) ' ',
        List.getElem_append_left hip]
    · rw [List.getElem?_eq_none (by omega)]
      have hgap' : toks.getD 0 ' ' = '-' := by
        rcases hgap with h | h
        · omega
        · exact h
      have hmz : (match (none : Option Char) with
          | some c => dictIndex toks c
          | none => 0) = 0 := rfl
      rw [hmz, hgap', List.getElem_append_right (by omega)]
      simp

/-- C8: decoding the integer matrix of `encode_index_array` through the
inverse of the index table (integer `k` back to the `k`-th token)
reconstructs, row by row, exactly the start/stop-affixed and gap-padded-to-
the-effective-length peptide strings, i.e. `prepare_sequences` applied with
the resolved maximum length as pad target.  (The implicit zero fill decodes
to the gap token precisely because gap has index 0 in variable-length mode;
in fixed-length mode no cell is left to the fill.) -/
theorem C8_index_roundtrip (e : Encoder) (peptides : List (List Char))
    (mpl : Option Nat) (X : List (List Nat)) (m : Nat)
    (hinit : initTokens e.cfg = .ok e.toks)
    (hchars : ∀ p ∈ peptides, ∀ c ∈ p, c ∈ alphabetLetters e.cfg)
    (hm : _validate_peptide_lengths e.cfg peptides mpl = .ok m)
    (hok : encode_index_array e peptides mpl = .ok X) :
    X.map (decodeRow (tokenChars e))
      = prepare_sequences e.cfg peptides (some m) := by
  have hvp : _validate_and_prepare_peptides e.cfg peptides mpl
      = .ok (prepare_sequences e.cfg peptides none,
        m + (if e.cfg.add_start_tokens then 1 else 0)
          + (if e.cfg.add_stop_tokens then 1 else 0)) := by
    unfold _validate_and_prepare_peptides
    rw [hm]
  have hX : X = (prepare_sequences e.cfg peptides none).map (fun p =>
      (List.range (m + (if e.cfg.add_start_tokens then 1 else 0)
        + (if e.cfg.add_stop_tokens then 1 else 0))).map (fun j =>
        match p[j]? with
        | some c => index_dict e c
        | none => 0)) := by
    unfold encode_index_array at hok
    split at hok
    · exact absurd hok (by simp)
    · rw [hvp] at hok
      have hok2 : Except.ok ((prepare_sequences e.cfg peptides none).map (fun p =>
          (List.range (m + (if e.cfg.add_start_tokens then 1 else 0)
            + (if e.cfg.add_stop_tokens then 1 else 0))).map (fun j =>
            match p[j]? with
            | some c => index_dict e c
            | none => 0))) = Except.ok X := hok
      simpa using hok2.symm
  subst hX
  rw [prepare_none_eq, List.map_map, List.map_map]
  rcases Nat.eq_zero_or_pos m with rfl | hm0
  · rw [prepare_zero_eq, prepare_none_eq]
    apply List.map_congr_left
    intro q hq
    have hq0 : q.length = 0 := by
      cases hv : e.cfg.variable_length_sequences
      · exact validate_ok_eq hm hv q hq
      · have := validate_ok_le hm hv q hq
        omega
    have hlen : (affix e.cfg q).length
        = 0 + (if e.cfg.add_start_tokens then 1 else 0)
          + (if e.cfg.add_stop_tokens then 1 else 0) := by
      rw [affix_length]
      omega
    have hdec := decode_row_eq (tokenChars e) (affix e.cfg q)
      (0 + (if e.cfg.add_start_tokens then 1 else 0)
        + (if e.cfg.add_stop_tokens then 1 else 0))
      (le_of_eq hlen) (prepared_char_mem hinit (hchars q hq)) (Or.inl hlen)
    simp only [Function.comp_apply, index_dict]
    rw [hdec, hlen]
    simp
  · rw [prepare_some_eq e.cfg peptides hm0]
    apply List.map_congr_left
    intro q hq
    have hbound : (affix e.cfg q).length
        ≤ m + (if e.cfg.add_start_tokens then 1 else 0)
          + (if e.cfg.add_stop_tokens then 1 else 0) := by
      rw [affix_length]
      cases hv : e.cfg.variable_length_sequences
      · have := validate_ok_eq hm hv q hq
        omega
      · have := validate_ok_le hm hv q hq
        omega
    have hgap : (affix e.cfg q).length
          = m + (if e.cfg.add_start_tokens then 1 else 0)
            + (if e.cfg.add_stop_tokens then 1 else 0)
        ∨ (tokenChars e).getD 0 ' ' = '-' := by
      cases hv : e.cfg.variable_length_sequences
      · left
        rw [affix_length]
        have := validate_ok_eq hm hv q hq
        omega
      · right
        exact tokenChars_getD_zero hinit hv
    have hdec := decode_row_eq (tokenChars e) (affix e.cfg q)
      (m + (if e.cfg.add_start_tokens then 1 else 0)
        + (if e.cfg.add_stop_tokens then 1 else 0))
      hbound (prepared_char_mem hinit (hchars q hq)) hgap
    simp only [Function.comp_apply, index_dict]
    rw [hdec]

/-- Witness for C8 at the variable-length encoder `encW` with the mixed
batch `["A", "AC"]`: decoding `[[1, 0], [1, 2]]` through the token table
`['-', 'A', 'C']` gives `["A-", "AC"]`, the gap-padded prepared strings. -/
theorem C8_index_roundtrip_witness :
    ([[1, 0], [1, 2]] : List (List Nat)).map (decodeRow (tokenChars encW))
      = prepare_sequences encW.cfg [['A'], ['A', 'C']] (some 2) :=
  C8_index_roundtrip encW [['A'], ['A', 'C']] none [[1, 0], [1, 2]] 2
    rfl (by decide) rfl rfl

/-- C4 (code bug): the pairwise-property encoder allocates
`np.zeros((n, max_peptide_length, 20))` with a hard-coded final dimension of
20 while building feature rows of the configured alphabet size, so for a
2-letter alphabet the assignment `X[i, j, :] = row` is a numpy broadcast
`ValueError` instead of the claimed `(batch, effective_length, 2)` tensor. -/
theorem C4_pairwise_hardcoded_width :
    _encode_from_pairwise_properties encFixed letterIndexW matrixW
      [['A', 'C']] none = .error .broadcastError := rfl

end Pepnet
